import Mathlib

/-!
Verification of the shadow-ledger accounting core of the `spk-staking-tests`
fuzz model (`wake_model/fuzz_slashes/`): the time-indexed cumulative-slash
lookup (`a_init.py`), the two action generators (`b_flows.py`) and the
sliding-window invariants (`c_invariants.py`), embedded shallowly over lists
of records with unbounded-integer arithmetic (Python `int`).
-/

namespace Spk

/-- Veto window: `3 * 24 * 60 * 60` seconds (3 days). -/
def DAYS3 : ℕ := 3 * 24 * 60 * 60

/-- Capture-time look-back window: `11 * 24 * 60 * 60` seconds (11 days). -/
def DAYS11 : ℕ := 11 * 24 * 60 * 60

/-- Expiry window: `14 * 24 * 60 * 60` seconds (14 days, the epoch duration). -/
def DAYS14 : ℕ := 14 * 24 * 60 * 60

/-- The network capacity `100_000e18` (`setMaxNetworkLimit` /
`setNetworkLimit` value, used as the slashable-stake cap in the flows and in
the invariants). -/
def networkCapacity : ℕ := 100000 * 10 ^ 18

/-- Shadow record of a slash request (`Request` dataclass in `a_init.py`). -/
structure Request where
  time_cap : ℕ
  time_req : ℕ
  amount : ℕ
  executed : Bool
deriving DecidableEq, Repr

/-- Shadow record of an executed slash (`Execution` dataclass in `a_init.py`). -/
structure Execution where
  time_cap : ℕ
  time_req : ℕ
  time_exec : ℕ
  cumulative_slash : ℕ
  amount : ℕ
deriving DecidableEq, Repr

instance : Inhabited Execution := ⟨⟨0, 0, 0, 0, 0⟩⟩

/-- Per-action success/failure counters (`Stats` dataclass in `a_init.py`;
each `Dict[bool, int]` is modelled as its two entries). -/
structure Stats where
  request_slash_t : ℕ
  request_slash_f : ℕ
  execute_slash_t : ℕ
  execute_slash_f : ℕ
deriving DecidableEq, Repr

/-- The mutable shadow-ledger state of a fuzz sequence:
`s.requested_slashes`, `s.executed_slashes` and `s.stats`. -/
structure LedgerState where
  requested_slashes : List Request
  executed_slashes : List Execution
  stats : Stats
deriving DecidableEq, Repr

/-- The body of Python's `bisect.bisect_right` binary-search loop
(`while lo < hi: mid = (lo+hi)//2; if x < a[mid]: hi = mid else: lo = mid+1`),
embedded with explicit fuel; each iteration strictly shrinks `hi - lo`, so any
fuel `≥ hi - lo` runs the loop to completion. -/
def bisectRightAux (a : List ℕ) (x : ℕ) : ℕ → ℕ → ℕ → ℕ
  | 0, lo, _ => lo
  | fuel + 1, lo, hi =>
    if lo < hi then
      if x < a.getD ((lo + hi) / 2) 0 then
        bisectRightAux a x fuel lo ((lo + hi) / 2)
      else
        bisectRightAux a x fuel (((lo + hi) / 2) + 1) hi
    else lo

/-- Python's `bisect.bisect_right(a, x)`: the rightmost insertion point for
`x` in `a`. -/
def bisect_right (a : List ℕ) (x : ℕ) : ℕ :=
  bisectRightAux a x a.length 0 a.length

/-- `Init.cumulative_slash_at` (`a_init.py` lines 30-41): bisect-right over
the `time_exec` fields of the executed slashes, then return the
`cumulative_slash` of the predecessor of the found index (0 if the index
is 0). -/
def cumulative_slash_at (execs : List Execution) (time_cap : ℕ) : ℕ :=
  if 0 < bisect_right (execs.map (·.time_exec)) time_cap then
    (execs.getD (bisect_right (execs.map (·.time_exec)) time_cap - 1)
      default).cumulative_slash
  else 0

/-- `s.executed_slashes[-1].cumulative_slash if len(s.executed_slashes) > 0
else 0`, as computed inline in both flows. -/
def last_cumulative_slash (execs : List Execution) : ℕ :=
  match execs.getLast? with
  | some e => e.cumulative_slash
  | none => 0

/-- `max(executed_time_caps) if len(executed_time_caps) > 0 else 0`, as
computed inline in both flows. -/
def time_last_capture (execs : List Execution) : ℕ :=
  (execs.map (·.time_cap)).foldr max 0

/-- `i_slashable_amt = max(int(Decimal("100_000e18")) + i_cumulative_slash_at
- i_cumulative_slash, 0)`, the slashable-stake formula computed identically in
both flows (Python ints; the intermediate difference lives in ℤ). -/
def slashable_amt (execs : List Execution) (time_cap : ℕ) : ℤ :=
  max ((networkCapacity : ℤ) + cumulative_slash_at execs time_cap
        - last_cumulative_slash execs) 0

/-- Expected outcome of a `flow_request_slash` submission. -/
inductive ReqOutcome where
  | expectSuccess
  | expectFail
deriving DecidableEq, Repr

/-- Expected outcome of a `flow_execute_slash` submission. -/
inductive ExecOutcome where
  | noop
  | expectFail
  | expectSuccess (amt : ℕ)
deriving DecidableEq, Repr

/-- `i_requested_amt` in `flow_request_slash`: the `random_int(0, slashable)`
draw when the slashable amount is positive, else 0. -/
def requested_amt (execs : List Execution) (time_cap amt_choice : ℕ) : ℕ :=
  if 0 < slashable_amt execs time_cap then amt_choice else 0

/-- `Flows.flow_request_slash` (`b_flows.py` lines 7-64).  `time_cap` and
`amt_choice` stand for the two `random_int` draws; the requested amount is the
draw when the slashable amount is positive and 0 otherwise.  On expected
success a `Request(time_cap, tx.block.timestamp, i_requested_amt)` is appended
(the submission is mined at the current time `now`) and the success counter is
bumped; otherwise only the failure counter is bumped. -/
def flow_request_slash (st : LedgerState) (now time_cap amt_choice : ℕ) :
    LedgerState × ReqOutcome :=
  let i_requested_amt : ℕ := requested_amt st.executed_slashes time_cap amt_choice
  if 0 < i_requested_amt then
    ({ st with
        requested_slashes :=
          st.requested_slashes ++ [⟨time_cap, now, i_requested_amt, false⟩],
        stats := { st.stats with
          request_slash_t := st.stats.request_slash_t + 1 } },
      ReqOutcome.expectSuccess)
  else
    ({ st with
        stats := { st.stats with
          request_slash_f := st.stats.request_slash_f + 1 } },
      ReqOutcome.expectFail)

/-- Result of one `flow_execute_slash` step: new ledger state, new chain
time, and the expected outcome of the submission. -/
structure ExecResult where
  st : LedgerState
  now : ℕ
  outcome : ExecOutcome
deriving DecidableEq, Repr

/-- The chain time at the execution submission: `flow_execute_slash` mines a
block 3 days later when the chosen request is younger than the 3-day veto
window. -/
def exec_now (r : Request) (now0 : ℕ) : ℕ :=
  if now0 < r.time_req + DAYS3 then now0 + DAYS3 else now0

/-- `i_slashable_amt` as recomputed in `flow_execute_slash`: the shared
slashable formula, zeroed when the request expired (time past
`time_cap + 14 days`) or is stale (`time_cap` before the last executed
capture). -/
def exec_slashable (execs : List Execution) (r : Request) (now : ℕ) : ℤ :=
  if r.time_cap + DAYS14 < now ∨ r.time_cap < time_last_capture execs then 0
  else slashable_amt execs r.time_cap

instance (execs : List Execution) (r : Request) (now : ℕ) :
    Decidable (r.time_cap + DAYS14 < now
      ∨ r.time_cap < time_last_capture execs) :=
  inferInstance

/-- `i_slashed_amt = min(i_slashable_amt, request.amount)`. -/
def exec_slashed (execs : List Execution) (r : Request) (now : ℕ) : ℤ :=
  min (exec_slashable execs r now) (r.amount : ℤ)

/-- The expected-failure condition of `flow_execute_slash`: already executed,
zero amount, expired, or zero slashable amount. -/
def exec_fail_cond (execs : List Execution) (r : Request) (now : ℕ) : Prop :=
  r.executed = true ∨ r.amount = 0 ∨ r.time_cap + DAYS14 < now ∨
    exec_slashable execs r now = 0

instance (execs : List Execution) (r : Request) (now : ℕ) :
    Decidable (exec_fail_cond execs r now) := by
  unfold exec_fail_cond
  infer_instance

/-- `i_cumulative_amount = last.cumulative_slash + i_slashed_amt` when any
execution exists, else `i_slashed_amt`. -/
def exec_cumulative (execs : List Execution) (slashed : ℕ) : ℕ :=
  match execs.getLast? with
  | some e => e.cumulative_slash + slashed
  | none => slashed

/-- `Flows.flow_execute_slash` (`b_flows.py` lines 66-128).  `i_idx` is the
random request index (out-of-range models the empty-list early return).  If
the request is younger than the 3-day veto window, time advances by 3 days
(`exec_now`).  The slashable amount is recomputed with the expiry/staleness
zeroing (`exec_slashable`).  The submission is expected to fail iff the
request was already executed, its amount is 0, it expired, or the slashable
amount is 0 (`exec_fail_cond`); otherwise it is expected to succeed returning
`min(i_slashable_amt, request.amount)` (`exec_slashed`), the request is
marked executed and an `Execution` with the advanced running total is
appended at the current time. -/
def flow_execute_slash (st : LedgerState) (now0 i_idx : ℕ) : ExecResult :=
  match st.requested_slashes.get? i_idx with
  | none => ⟨st, now0, ExecOutcome.noop⟩
  | some request =>
    if exec_fail_cond st.executed_slashes request (exec_now request now0) then
      ⟨{ st with
          stats := { st.stats with
            execute_slash_f := st.stats.execute_slash_f + 1 } },
        exec_now request now0, ExecOutcome.expectFail⟩
    else
      ⟨{ requested_slashes :=
            st.requested_slashes.set i_idx { request with executed := true },
          executed_slashes := st.executed_slashes ++
            [⟨request.time_cap, request.time_req, exec_now request now0,
              exec_cumulative st.executed_slashes
                (exec_slashed st.executed_slashes request
                  (exec_now request now0)).toNat,
              (exec_slashed st.executed_slashes request
                (exec_now request now0)).toNat⟩],
          stats := { st.stats with
            execute_slash_t := st.stats.execute_slash_t + 1 } },
        exec_now request now0,
        ExecOutcome.expectSuccess
          (exec_slashed st.executed_slashes request
            (exec_now request now0)).toNat⟩

/-- The fresh ledger established by `Init.pre_sequence`: empty request and
execution lists, zeroed stats. -/
def initState : LedgerState := ⟨[], [], ⟨0, 0, 0, 0⟩⟩

/-- Reachable shadow-ledger states: a fresh sequence starts from `initState`
at an arbitrary warm-up time; chain time only moves forward between flows;
`flow_request_slash` runs with a capture time drawn by
`random_int(max(now - 11 days + 1, time_last_capture + 1), now - 1)` and an
amount draw bounded by the slashable amount; `flow_execute_slash` runs with a
request index drawn by `random.randint(0, len(requested_slashes) - 1)`. -/
inductive Reachable : LedgerState → ℕ → Prop where
  | init (now : ℕ) : Reachable initState now
  | tick {st : LedgerState} {now now' : ℕ} :
      Reachable st now → now ≤ now' → Reachable st now'
  | request {st : LedgerState} {now time_cap amt_choice : ℕ} :
      Reachable st now →
      max (now - DAYS11 + 1) (time_last_capture st.executed_slashes + 1)
        ≤ time_cap →
      time_cap + 1 ≤ now →
      (amt_choice : ℤ) ≤ slashable_amt st.executed_slashes time_cap →
      Reachable (flow_request_slash st now time_cap amt_choice).1 now
  | execute {st : LedgerState} {now i_idx : ℕ} :
      Reachable st now →
      i_idx < st.requested_slashes.length →
      Reachable (flow_execute_slash st now i_idx).st
        (flow_execute_slash st now i_idx).now

/-- `Invariants.inv_capture_timestamps` (`c_invariants.py`): for every
recorded execution, the amounts of the executions captured within the 3-day
window starting at its capture time sum to at most the network capacity. -/
def inv_capture_timestamps (execs : List Execution) : Prop :=
  ∀ e ∈ execs,
    (((execs.filter (fun x => decide (e.time_cap ≤ x.time_cap ∧
        x.time_cap ≤ DAYS3 + e.time_cap))).map (·.amount)).sum
      ≤ networkCapacity)

/-- `Invariants.inv_requested_timestamps` (`c_invariants.py`): the 3-day
sliding-window bound with windows anchored at request times. -/
def inv_requested_timestamps (execs : List Execution) : Prop :=
  ∀ e ∈ execs,
    (((execs.filter (fun x => decide (e.time_req ≤ x.time_req ∧
        x.time_req ≤ DAYS3 + e.time_req))).map (·.amount)).sum
      ≤ networkCapacity)

/-- `Invariants.inv_executed_timestamps` (`c_invariants.py`): the 3-day
sliding-window bound with windows anchored at execution times. -/
def inv_executed_timestamps (execs : List Execution) : Prop :=
  ∀ e ∈ execs,
    (((execs.filter (fun x => decide (e.time_exec ≤ x.time_exec ∧
        x.time_exec ≤ DAYS3 + e.time_exec))).map (·.amount)).sum
      ≤ networkCapacity)

/-- The spec's reading of the lookup: the `cumulative_slash` of the last
recorded execution whose `capture_time` is at most the queried time, or 0 when
none exists.  Stated from the spec's words for comparison with
`cumulative_slash_at`, which the source implements over `time_exec`. -/
def cumulative_slash_at_by_capture (execs : List Execution) (t : ℕ) : ℕ :=
  match (execs.filter (fun e => decide (e.time_cap ≤ t))).getLast? with
  | some e => e.cumulative_slash
  | none => 0

/-- The running-total invariant: the `cumulative_slash` of the `i`-th
execution equals the sum of the `amount` fields of executions `0..i`. -/
def IsRunningTotal (l : List Execution) : Prop :=
  ∀ i < l.length,
    (l.getD i default).cumulative_slash = (((l.take (i + 1)).map (·.amount)).sum)

/-- The per-execution capacity bound at the heart of the window invariants:
each execution's amount, plus the amounts of the earlier executions whose
execution time is after its capture time, fits in the network capacity. -/
def WindowKey (l : List Execution) : Prop :=
  ∀ j < l.length,
    ((l.getD j default).amount +
      (((l.take j).filter
          (fun x => decide ((l.getD j default).time_cap < x.time_exec))).map
        (·.amount)).sum)
      ≤ networkCapacity

/-- The lookup rule the source implements: the `cumulative_slash` of the last
recorded execution whose `time_exec` is at most the queried time (ties at the
queried time included), or 0 when none exists. -/
def cumulative_slash_at_by_exec (execs : List Execution) (t : ℕ) : ℕ :=
  match (execs.filter (fun e => decide (e.time_exec ≤ t))).getLast? with
  | some e => e.cumulative_slash
  | none => 0

/-- The executed-slashes list is sorted (non-decreasing) by the given key. -/
def SortedBy (key : Execution → ℕ) (l : List Execution) : Prop :=
  l.Pairwise (fun a b => key a ≤ key b)

/-- The binary-search bracketing postcondition as the spec words it, over the
`capture_time` fields, at the index the source's search (over `time_exec`)
locates. -/
def bracket_by_capture (execs : List Execution) (t : ℕ) : Prop :=
  (bisect_right (execs.map (·.time_exec)) t = 0 ∨
    (execs.getD (bisect_right (execs.map (·.time_exec)) t - 1)
      default).time_cap ≤ t) ∧
  (bisect_right (execs.map (·.time_exec)) t = execs.length ∨
    t ≤ (execs.getD (bisect_right (execs.map (·.time_exec)) t)
      default).time_cap)

/-- The bracketing postcondition the source asserts (`a_init.py` lines
36-39), over the `time_exec` fields. -/
def bracket_by_exec (execs : List Execution) (t : ℕ) : Prop :=
  (bisect_right (execs.map (·.time_exec)) t = 0 ∨
    (execs.getD (bisect_right (execs.map (·.time_exec)) t - 1)
      default).time_exec ≤ t) ∧
  (bisect_right (execs.map (·.time_exec)) t = execs.length ∨
    t ≤ (execs.getD (bisect_right (execs.map (·.time_exec)) t)
      default).time_exec)

instance (execs : List Execution) (t : ℕ) :
    Decidable (bracket_by_capture execs t) := by
  unfold bracket_by_capture
  infer_instance

instance (execs : List Execution) (t : ℕ) :
    Decidable (bracket_by_exec execs t) := by
  unfold bracket_by_exec
  infer_instance

instance (key : Execution → ℕ) (l : List Execution) :
    Decidable (SortedBy key l) := by
  unfold SortedBy
  infer_instance

instance (l : List Execution) : Decidable (IsRunningTotal l) := by
  unfold IsRunningTotal
  infer_instance

/-- Invariant bundle maintained by every reachable shadow-ledger state. -/
structure StateInv (st : LedgerState) (now : ℕ) : Prop where
  rt : IsRunningTotal st.executed_slashes
  sorted_cap : SortedBy (·.time_cap) st.executed_slashes
  sorted_exec : SortedBy (·.time_exec) st.executed_slashes
  gaps : ∀ e ∈ st.executed_slashes,
    e.time_cap + 1 ≤ e.time_req ∧ e.time_req + DAYS3 ≤ e.time_exec
  exec_le_now : ∀ e ∈ st.executed_slashes, e.time_exec ≤ now
  reqs : ∀ r ∈ st.requested_slashes,
    r.time_cap + 1 ≤ r.time_req ∧ r.time_req ≤ now
  winkey : WindowKey st.executed_slashes

/-- A concrete reachable two-step history: one request at capture time 5 made
at time 10 with amount 100, then executed (time advances past the veto window
to 259210).  Exhibits an execution whose `time_cap` (5) lies strictly below
its `time_exec` (259210). -/
def exStC1 : LedgerState :=
  (flow_execute_slash (flow_request_slash initState 10 5 100).1 10 0).st

/-- The same concrete reachable two-step history, for the bracketing claim. -/
def exStC5 : LedgerState :=
  (flow_execute_slash (flow_request_slash initState 10 5 100).1 10 0).st

/-- Sums of natural-number lists are monotone under the sublist relation. -/
theorem sum_le_of_sublist {l₁ l₂ : List ℕ} (h : l₁.Sublist l₂) :
    l₁.sum ≤ l₂.sum := by
  induction h with
  | slnil => exact le_rfl
  | cons a _ ih => simp only [List.sum_cons]; omega
  | cons₂ a _ ih => simp only [List.sum_cons]; omega

/-- In a list sorted by `≤`, indexed access via `getD` is monotone. -/
theorem getD_mono_of_sorted {a : List ℕ} (h : a.Pairwise (· ≤ ·)) :
    ∀ i j, i ≤ j → j < a.length → a.getD i 0 ≤ a.getD j 0 := by
  intro i j hij hj
  rcases Nat.eq_or_lt_of_le hij with heq | hlt
  · subst heq; exact le_rfl
  · have hi : i < a.length := Nat.lt_trans hlt hj
    rw [List.getD_eq_getElem a 0 hi, List.getD_eq_getElem a 0 hj]
    exact List.pairwise_iff_getElem.mp h i j hi hj hlt

/-- The binary-search loop keeps its result inside `[lo, hi]`. -/
theorem bisectRightAux_bounds (a : List ℕ) (x : ℕ) (fuel : ℕ) :
    ∀ lo hi, lo ≤ hi →
      lo ≤ bisectRightAux a x fuel lo hi ∧ bisectRightAux a x fuel lo hi ≤ hi := by
  induction fuel with
  | zero => intro lo hi h; simp only [bisectRightAux]; omega
  | succ fuel ih =>
    intro lo hi h
    simp only [bisectRightAux]
    by_cases hlt : lo < hi
    · simp only [hlt, if_true]
      by_cases hx : x < a.getD ((lo + hi) / 2) 0
      · simp only [hx, if_true]
        have := ih lo ((lo + hi) / 2) (by omega)
        omega
      · simp only [hx, if_false]
        have := ih (((lo + hi) / 2) + 1) hi (by omega)
        omega
    · simp only [hlt, if_false]; omega

/-- Bracketing invariant of the binary-search loop on a sorted list: with
enough fuel, every index below the result holds a value `≤ x` and every index
at or above it holds a value `> x`. -/
theorem bisectRightAux_bracket (a : List ℕ) (x : ℕ)
    (hmono : ∀ i j, i ≤ j → j < a.length → a.getD i 0 ≤ a.getD j 0)
    (fuel : ℕ) :
    ∀ lo hi, hi - lo ≤ fuel → lo ≤ hi → hi ≤ a.length →
      (∀ j, j < lo → a.getD j 0 ≤ x) →
      (∀ j, hi ≤ j → j < a.length → x < a.getD j 0) →
      (∀ j, j < bisectRightAux a x fuel lo hi → a.getD j 0 ≤ x) ∧
      (∀ j, bisectRightAux a x fuel lo hi ≤ j → j < a.length → x < a.getD j 0) := by
  induction fuel with
  | zero =>
    intro lo hi hfuel hlohi hhi h1 h2
    have heq : lo = hi := by omega
    simp only [bisectRightAux]
    exact ⟨h1, fun j hj hl => h2 j (by omega) hl⟩
  | succ fuel ih =>
    intro lo hi hfuel hlohi hhi h1 h2
    simp only [bisectRightAux]
    by_cases hlt : lo < hi
    · simp only [hlt, if_true]
      by_cases hx : x < a.getD ((lo + hi) / 2) 0
      · simp only [hx, if_true]
        refine ih lo ((lo + hi) / 2) (by omega) (by omega) (by omega) h1 ?_
        intro j hj hjlen
        exact Nat.lt_of_lt_of_le hx (hmono ((lo + hi) / 2) j hj hjlen)
      · simp only [hx, if_false]
        refine ih (((lo + hi) / 2) + 1) hi (by omega) (by omega) hhi ?_ h2
        intro j hj
        have hmid : a.getD j 0 ≤ a.getD ((lo + hi) / 2) 0 :=
          hmono j ((lo + hi) / 2) (by omega) (by omega)
        omega
    · simp only [hlt, if_false]
      have heq : lo = hi := by omega
      exact ⟨h1, fun j hj hl => h2 j (by omega) hl⟩

/-- The rightmost insertion point never exceeds the list length. -/
theorem bisect_right_le_length (a : List ℕ) (x : ℕ) :
    bisect_right a x ≤ a.length :=
  (bisectRightAux_bounds a x a.length 0 a.length (Nat.zero_le _)).2

/-- Bracketing property of `bisect_right` on a sorted list. -/
theorem bisect_right_bracket {a : List ℕ} (h : a.Pairwise (· ≤ ·)) (x : ℕ) :
    (∀ j, j < bisect_right a x → a.getD j 0 ≤ x) ∧
    (∀ j, bisect_right a x ≤ j → j < a.length → x < a.getD j 0) :=
  bisectRightAux_bracket a x (getD_mono_of_sorted h) a.length 0 a.length
    (by omega) (Nat.zero_le _) le_rfl
    (fun j hj => absurd hj (Nat.not_lt_zero j))
    (fun j hj hl => absurd hl (by omega))

/-- A list whose elements satisfy `p` exactly on the indices below `i`
filters to its `i`-element front. -/
theorem filter_eq_take_of_bracket {α : Type} (d : α) (p : α → Bool) :
    ∀ (l : List α) (i : ℕ), i ≤ l.length →
      (∀ j, j < i → p (l.getD j d) = true) →
      (∀ j, i ≤ j → j < l.length → p (l.getD j d) = false) →
      l.filter p = l.take i := by
  intro l
  induction l with
  | nil => intro i hi _ _; simp
  | cons a t ih =>
    intro i hi h1 h2
    cases i with
    | zero =>
      rw [List.take_zero]
      rw [List.filter_eq_nil_iff]
      intro y hy
      rw [List.mem_iff_getElem] at hy
      obtain ⟨n, hn, rfl⟩ := hy
      have := h2 n (Nat.zero_le n) hn
      rw [List.getD_eq_getElem _ d hn] at this
      simp [this]
    | succ i' =>
      have hpa : p a = true := by
        have := h1 0 (Nat.succ_pos i')
        rwa [List.getD_cons_zero] at this
      rw [List.filter_cons_of_pos hpa, List.take_succ_cons]
      congr 1
      refine ih i' (by simpa using hi) ?_ ?_
      · intro j hj
        have := h1 (j + 1) (by omega)
        rwa [List.getD_cons_succ] at this
      · intro j hj hjl
        have := h2 (j + 1) (by omega) (by simpa using hjl)
        rwa [List.getD_cons_succ] at this

/-- The last element of a nonempty front `take i` is the element at `i - 1`. -/
theorem getLast?_take_eq {α : Type} (d : α) (l : List α) (i : ℕ)
    (h0 : 0 < i) (hl : i ≤ l.length) :
    (l.take i).getLast? = some (l.getD (i - 1) d) := by
  rw [List.getLast?_eq_getElem?]
  have hlen : (l.take i).length = i := by
    rw [List.length_take]; omega
  rw [hlen, List.getElem?_take]
  have hi1 : i - 1 < i := by omega
  simp only [hi1, if_true]
  have hi1l : i - 1 < l.length := by omega
  rw [List.getD_eq_getElem l d hi1l]
  exact (List.getElem?_eq_getElem hi1l)

/-- A list whose elements satisfy `p` exactly on the indices from `i` on
filters to its tail from `i`. -/
theorem filter_eq_drop_of_bracket {α : Type} (d : α) (p : α → Bool) :
    ∀ (l : List α) (i : ℕ), i ≤ l.length →
      (∀ j, j < i → p (l.getD j d) = false) →
      (∀ j, i ≤ j → j < l.length → p (l.getD j d) = true) →
      l.filter p = l.drop i := by
  intro l
  induction l with
  | nil => intro i hi _ _; simp
  | cons a t ih =>
    intro i hi h1 h2
    cases i with
    | zero =>
      rw [List.drop_zero]
      rw [List.filter_eq_self]
      intro y hy
      rw [List.mem_iff_getElem] at hy
      obtain ⟨n, hn, rfl⟩ := hy
      have := h2 n (Nat.zero_le n) hn
      rwa [List.getD_eq_getElem _ d hn] at this
    | succ i' =>
      have hpa : p a = false := by
        have := h1 0 (Nat.succ_pos i')
        rwa [List.getD_cons_zero] at this
      rw [List.filter_cons_of_neg (by simp [hpa]), List.drop_succ_cons]
      refine ih i' (by simpa using hi) ?_ ?_
      · intro j hj
        have := h1 (j + 1) (by omega)
        rwa [List.getD_cons_succ] at this
      · intro j hj hjl
        have := h2 (j + 1) (by omega) (by simpa using hjl)
        rwa [List.getD_cons_succ] at this

/-- Sortedness by a key transfers to the mapped key list. -/
theorem sorted_map_of_sortedBy {key : Execution → ℕ} {l : List Execution}
    (h : SortedBy key l) : (l.map key).Pairwise (· ≤ ·) :=
  List.pairwise_map.mpr h

/-- `getD` on a mapped key list reads the key of the `getD` element. -/
theorem getD_map_key (key : Execution → ℕ) (l : List Execution) (j : ℕ)
    (hj : j < l.length) :
    (l.map key).getD j 0 = key (l.getD j default) := by
  rw [List.getD_eq_getElem _ 0 (by simpa using hj),
    List.getD_eq_getElem _ default hj]
  exact List.getElem_map key

/-- The insertion point over the mapped keys stays within the list length. -/
theorem bisect_le_len (key : Execution → ℕ) (l : List Execution) (t : ℕ) :
    bisect_right (l.map key) t ≤ l.length := by
  have := bisect_right_le_length (l.map key) t
  simpa using this

/-- On a ledger sorted by `time_exec`, the executions at or before `t` form
exactly the front of the list cut at the insertion point found by the
search. -/
theorem filter_le_eq_take {l : List Execution}
    (hs : SortedBy (·.time_exec) l) (t : ℕ) :
    l.filter (fun e => decide (e.time_exec ≤ t)) =
      l.take (bisect_right (l.map (·.time_exec)) t) := by
  have hb := bisect_right_bracket (sorted_map_of_sortedBy hs) t
  have hil : bisect_right (l.map (·.time_exec)) t ≤ l.length :=
    bisect_le_len _ l t
  apply filter_eq_take_of_bracket default _ l _ hil
  · intro j hj
    have h1 := hb.1 j hj
    rw [getD_map_key _ l j (by omega)] at h1
    simpa using h1
  · intro j hj hjl
    have h2 := hb.2 j hj (by simpa using hjl)
    rw [getD_map_key _ l j hjl] at h2
    simp only [decide_eq_false_iff_not]
    omega

/-- On a ledger sorted by `time_exec`, the executions strictly after `t` form
exactly the tail of the list from the insertion point found by the search. -/
theorem filter_gt_eq_drop {l : List Execution}
    (hs : SortedBy (·.time_exec) l) (t : ℕ) :
    l.filter (fun e => decide (t < e.time_exec)) =
      l.drop (bisect_right (l.map (·.time_exec)) t) := by
  have hb := bisect_right_bracket (sorted_map_of_sortedBy hs) t
  have hil : bisect_right (l.map (·.time_exec)) t ≤ l.length :=
    bisect_le_len _ l t
  apply filter_eq_drop_of_bracket default _ l _ hil
  · intro j hj
    have h1 := hb.1 j hj
    rw [getD_map_key _ l j (by omega)] at h1
    simp only [decide_eq_false_iff_not]
    omega
  · intro j hj hjl
    have h2 := hb.2 j hj (by simpa using hjl)
    rw [getD_map_key _ l j hjl] at h2
    simpa using h2

/-- On a ledger sorted by `time_exec`, the implemented lookup returns the
`cumulative_slash` of the last execution with `time_exec ≤ t`, or 0. -/
theorem cumulative_slash_at_eq_by_exec {l : List Execution}
    (hs : SortedBy (·.time_exec) l) (t : ℕ) :
    cumulative_slash_at l t = cumulative_slash_at_by_exec l t := by
  unfold cumulative_slash_at cumulative_slash_at_by_exec
  rw [filter_le_eq_take hs t]
  by_cases h0 : 0 < bisect_right (l.map (·.time_exec)) t
  · rw [if_pos h0, getLast?_take_eq default l _ h0 (bisect_le_len _ l t)]
  · rw [if_neg h0]
    have hz : bisect_right (l.map (·.time_exec)) t = 0 := by omega
    rw [hz]
    simp

/-- On a sorted ledger with running totals, the lookup returns the sum of the
amounts of the executions with `time_exec ≤ t`. -/
theorem cumulative_slash_at_eq_sum {l : List Execution}
    (hs : SortedBy (·.time_exec) l) (hrt : IsRunningTotal l) (t : ℕ) :
    cumulative_slash_at l t =
      ((l.filter (fun e => decide (e.time_exec ≤ t))).map (·.amount)).sum := by
  rw [filter_le_eq_take hs t]
  unfold cumulative_slash_at
  by_cases h0 : 0 < bisect_right (l.map (·.time_exec)) t
  · rw [if_pos h0]
    have hil : bisect_right (l.map (·.time_exec)) t ≤ l.length :=
      bisect_le_len _ l t
    rw [hrt (bisect_right (l.map (·.time_exec)) t - 1) (by omega)]
    have harg : bisect_right (l.map (·.time_exec)) t - 1 + 1 =
        bisect_right (l.map (·.time_exec)) t := by omega
    rw [harg]
  · rw [if_neg h0]
    have hz : bisect_right (l.map (·.time_exec)) t = 0 := by omega
    rw [hz]
    simp

/-- Each recorded cumulative total is at most the sum of all amounts. -/
theorem cum_le_sum {l : List Execution} (hrt : IsRunningTotal l) {j : ℕ}
    (hj : j < l.length) :
    (l.getD j default).cumulative_slash ≤ (l.map (·.amount)).sum := by
  rw [hrt j hj]
  exact sum_le_of_sublist (List.Sublist.map _ (List.take_sublist (j + 1) l))

/-- With running totals, the last cumulative total is the sum of all
amounts. -/
theorem last_cumulative_eq_sum {l : List Execution} (hrt : IsRunningTotal l) :
    last_cumulative_slash l = (l.map (·.amount)).sum := by
  rcases List.eq_nil_or_concat l with rfl | ⟨l', b, rfl⟩
  · simp [last_cumulative_slash]
  · rw [List.concat_eq_append] at hrt ⊢
    rw [last_cumulative_slash, List.getLast?_concat]
    have hlen : l'.length < (l' ++ [b]).length := by simp
    have := hrt l'.length hlen
    rw [List.getD_append_right l' [b] default l'.length le_rfl] at this
    simp only [Nat.sub_self, List.getD_cons_zero] at this
    show b.cumulative_slash = (List.map (fun x => x.amount) (l' ++ [b])).sum
    rw [this, List.take_of_length_le (by simp)]

/-- The lookup never exceeds the last cumulative total. -/
theorem cumulative_slash_at_le_last {l : List Execution}
    (hrt : IsRunningTotal l) (t : ℕ) :
    cumulative_slash_at l t ≤ last_cumulative_slash l := by
  rw [last_cumulative_eq_sum hrt]
  unfold cumulative_slash_at
  by_cases h0 : 0 < bisect_right (l.map (·.time_exec)) t
  · rw [if_pos h0]
    have hil : bisect_right (l.map (·.time_exec)) t ≤ l.length :=
      bisect_le_len _ l t
    exact cum_le_sum hrt (by omega)
  · rw [if_neg h0]
    exact Nat.zero_le _

/-- The lookup plus the amounts executed strictly after `t` recover the total
executed amount. -/
theorem cumulative_slash_at_add_gt {l : List Execution}
    (hs : SortedBy (·.time_exec) l) (hrt : IsRunningTotal l) (t : ℕ) :
    cumulative_slash_at l t +
        ((l.filter (fun e => decide (t < e.time_exec))).map (·.amount)).sum =
      (l.map (·.amount)).sum := by
  rw [cumulative_slash_at_eq_sum hs hrt t, filter_le_eq_take hs t,
    filter_gt_eq_drop hs t, List.map_take, List.map_drop,
    List.sum_take_add_sum_drop]

/-- Every recorded capture time is at most the tracked last capture time. -/
theorem le_time_last_capture :
    ∀ {l : List Execution} {e : Execution}, e ∈ l →
      e.time_cap ≤ time_last_capture l := by
  intro l
  induction l with
  | nil => intro e he; cases he
  | cons a t ih =>
    intro e he
    unfold time_last_capture
    simp only [List.map_cons, List.foldr_cons]
    rcases List.mem_cons.mp he with rfl | ht
    · exact le_max_left _ _
    · have hrec := ih ht
      unfold time_last_capture at hrec
      exact le_trans hrec (le_max_right _ _)

/-- Appending an execution whose cumulative total extends the sum of the
previous amounts preserves the running-total invariant. -/
theorem isRunningTotal_append {l : List Execution} (hrt : IsRunningTotal l)
    (e : Execution)
    (he : e.cumulative_slash = (l.map (·.amount)).sum + e.amount) :
    IsRunningTotal (l ++ [e]) := by
  intro i hi
  rw [List.length_append, List.length_singleton] at hi
  by_cases hil : i < l.length
  · rw [List.getD_append _ _ _ _ hil, List.take_append_of_le_length (by omega)]
    exact hrt i hil
  · have hie : i = l.length := by omega
    subst hie
    rw [List.getD_append_right _ _ _ _ le_rfl]
    simp only [Nat.sub_self, List.getD_cons_zero]
    rw [List.take_of_length_le (by simp), List.map_append, List.sum_append]
    simpa using he

/-- Appending an execution whose amount plus the amounts of the earlier
executions past its capture time fits in the capacity preserves the window
bound. -/
theorem windowKey_append {l : List Execution} (hk : WindowKey l) (e : Execution)
    (he : e.amount +
        ((l.filter (fun x => decide (e.time_cap < x.time_exec))).map
          (·.amount)).sum ≤ networkCapacity) :
    WindowKey (l ++ [e]) := by
  intro j hj
  rw [List.length_append, List.length_singleton] at hj
  by_cases hjl : j < l.length
  · rw [List.getD_append _ _ _ _ hjl, List.take_append_of_le_length (by omega)]
    exact hk j hjl
  · have hje : j = l.length := by omega
    subst hje
    rw [List.getD_append_right _ _ _ _ le_rfl]
    simp only [Nat.sub_self, List.getD_cons_zero]
    rw [List.take_left]
    exact he

/-- The fresh ledger satisfies the invariant bundle at any time. -/
theorem stateInv_init (now : ℕ) : StateInv initState now := by
  refine ⟨?_, ?_, ?_, ?_, ?_, ?_, ?_⟩ <;>
    simp [initState, IsRunningTotal, SortedBy, WindowKey]

/-- Advancing chain time preserves the invariant bundle. -/
theorem stateInv_tick {st : LedgerState} {now now' : ℕ} (h : StateInv st now)
    (hle : now ≤ now') : StateInv st now' := by
  refine ⟨h.rt, h.sorted_cap, h.sorted_exec, h.gaps, ?_, ?_, h.winkey⟩
  · intro e he; exact le_trans (h.exec_le_now e he) hle
  · intro r hr; exact ⟨(h.reqs r hr).1, le_trans (h.reqs r hr).2 hle⟩

/-- The request flow preserves the invariant bundle, provided the drawn
capture time lies strictly in the past (as `random_int`'s upper bound
`now - 1` guarantees). -/
theorem stateInv_request {st : LedgerState} {now time_cap amt_choice : ℕ}
    (h : StateInv st now) (htc : time_cap + 1 ≤ now) :
    StateInv (flow_request_slash st now time_cap amt_choice).1 now := by
  simp only [flow_request_slash]
  by_cases hpos : 0 < requested_amt st.executed_slashes time_cap amt_choice
  · rw [if_pos hpos]
    refine ⟨h.rt, h.sorted_cap, h.sorted_exec, h.gaps, h.exec_le_now, ?_,
      h.winkey⟩
    intro r hr
    simp only [List.mem_append, List.mem_cons] at hr
    rcases hr with hr | hr
    · exact h.reqs r hr
    · rcases hr with rfl | hfalse
      · exact ⟨htc, le_rfl⟩
      · cases hfalse
  · rw [if_neg hpos]
    exact ⟨h.rt, h.sorted_cap, h.sorted_exec, h.gaps, h.exec_le_now, h.reqs,
      h.winkey⟩

/-- The invariant bundle only inspects the two ledger lists. -/
theorem stateInv_of_eq {st st' : LedgerState} {now : ℕ} (h : StateInv st now)
    (hr : st'.requested_slashes = st.requested_slashes)
    (he : st'.executed_slashes = st.executed_slashes) : StateInv st' now := by
  refine ⟨?_, ?_, ?_, ?_, ?_, ?_, ?_⟩
  · rw [he]; exact h.rt
  · rw [he]; exact h.sorted_cap
  · rw [he]; exact h.sorted_exec
  · rw [he]; exact h.gaps
  · rw [he]; exact h.exec_le_now
  · rw [hr]; exact h.reqs
  · rw [he]; exact h.winkey

/-- `exec_cumulative` advances the last cumulative total by the slashed
amount. -/
theorem exec_cumulative_eq (execs : List Execution) (slashed : ℕ) :
    exec_cumulative execs slashed = last_cumulative_slash execs + slashed := by
  unfold exec_cumulative last_cumulative_slash
  cases execs.getLast? <;> simp

/-- The veto-window advancement lands at or after `time_req + 3 days` and
never moves time backwards. -/
theorem exec_now_ge {r : Request} {now0 : ℕ} (hr : r.time_req ≤ now0) :
    r.time_req + DAYS3 ≤ exec_now r now0 ∧ now0 ≤ exec_now r now0 := by
  unfold exec_now
  split <;> omega

/-- A nonzero recomputed slashable amount certifies non-staleness. -/
theorem not_stale_of_slashable_ne {execs : List Execution} {r : Request}
    {now : ℕ} (hne : exec_slashable execs r now ≠ 0) :
    time_last_capture execs ≤ r.time_cap := by
  unfold exec_slashable at hne
  by_cases hz : r.time_cap + DAYS14 < now
      ∨ r.time_cap < time_last_capture execs
  · rw [if_pos hz] at hne; cases hne rfl
  · omega

/-- Capacity bound for a successful execution: the slashed amount plus the
amounts of the already-recorded executions whose execution time is past the
request's capture time fit in the network capacity. -/
theorem exec_append_bound {l : List Execution} {r : Request} {now : ℕ}
    (hs : SortedBy (·.time_exec) l) (hrt : IsRunningTotal l)
    (hne : exec_slashable l r now ≠ 0) :
    (exec_slashed l r now).toNat +
        ((l.filter (fun x => decide (r.time_cap < x.time_exec))).map
          (·.amount)).sum
      ≤ networkCapacity := by
  unfold exec_slashed at *
  unfold exec_slashable at *
  by_cases hz : r.time_cap + DAYS14 < now
      ∨ r.time_cap < time_last_capture l
  · rw [if_pos hz] at hne; cases hne rfl
  · rw [if_neg hz] at *
    unfold slashable_amt at *
    have hsum := cumulative_slash_at_add_gt hs hrt r.time_cap
    have hlast := last_cumulative_eq_sum hrt
    omega

/-- The execute flow preserves the invariant bundle. -/
theorem stateInv_execute {st : LedgerState} {now0 i_idx : ℕ}
    (h : StateInv st now0) :
    StateInv (flow_execute_slash st now0 i_idx).st
      (flow_execute_slash st now0 i_idx).now := by
  unfold flow_execute_slash
  cases hreq : st.requested_slashes.get? i_idx with
  | none => exact h
  | some r =>
    dsimp only
    have hrmem : r ∈ st.requested_slashes := List.get?_mem hreq
    obtain ⟨hr1, hr2⟩ := h.reqs r hrmem
    obtain ⟨hnow3, hnow0⟩ := exec_now_ge hr2
    by_cases hfail : exec_fail_cond st.executed_slashes r (exec_now r now0)
    · rw [if_pos hfail]
      exact stateInv_of_eq (stateInv_tick h hnow0) rfl rfl
    · rw [if_neg hfail]
      have hne : exec_slashable st.executed_slashes r (exec_now r now0) ≠ 0 := by
        unfold exec_fail_cond at hfail
        push_neg at hfail
        exact hfail.2.2.2
      have hstale : time_last_capture st.executed_slashes ≤ r.time_cap :=
        not_stale_of_slashable_ne hne
      refine ⟨?_, ?_, ?_, ?_, ?_, ?_, ?_⟩
      · refine isRunningTotal_append h.rt _ ?_
        rw [exec_cumulative_eq, last_cumulative_eq_sum h.rt]
      · refine List.pairwise_append.mpr ⟨h.sorted_cap, List.pairwise_singleton _ _, ?_⟩
        intro b hb c hc
        rcases List.mem_singleton.mp hc with rfl
        exact le_trans (le_time_last_capture hb) hstale
      · refine List.pairwise_append.mpr ⟨h.sorted_exec, List.pairwise_singleton _ _, ?_⟩
        intro b hb c hc
        rcases List.mem_singleton.mp hc with rfl
        exact le_trans (h.exec_le_now b hb) hnow0
      · intro e he
        rcases List.mem_append.mp he with he | he
        · exact h.gaps e he
        · rcases List.mem_singleton.mp he with rfl
          exact ⟨hr1, hnow3⟩
      · intro e he
        rcases List.mem_append.mp he with he | he
        · exact le_trans (h.exec_le_now e he) hnow0
        · rcases List.mem_singleton.mp he with rfl
          exact le_rfl
      · intro q hq
        rcases List.mem_or_eq_of_mem_set hq with hq | hq
        · exact ⟨(h.reqs q hq).1, le_trans (h.reqs q hq).2 hnow0⟩
        · subst hq
          exact ⟨hr1, le_trans hr2 hnow0⟩
      · exact windowKey_append h.winkey _
          (exec_append_bound h.sorted_exec h.rt hne)

/-- The per-execution capacity bound restricts to front segments. -/
theorem windowKey_of_append {l : List Execution} {b : Execution}
    (hk : WindowKey (l ++ [b])) : WindowKey l := by
  intro j hj
  have hlen : j < (l ++ [b]).length := by simp; omega
  have := hk j hlen
  rw [List.getD_append _ _ _ _ hj, List.take_append_of_le_length (by omega)]
    at this
  exact this

/-- Core window bound: any selection of executions that pairwise straddle
each other's capture/execution times (each selected capture time lies before
each selected execution time) sums to at most the capacity. -/
theorem window_sum_le {l : List Execution} (hkey : WindowKey l)
    {P : Execution → Bool}
    (hC : ∀ x ∈ l, ∀ y ∈ l, P x = true → P y = true →
      y.time_cap < x.time_exec) :
    ((l.filter P).map (·.amount)).sum ≤ networkCapacity := by
  induction l using List.reverseRecOn with
  | nil => simp
  | append_singleton l' b ih =>
    have hkey' : WindowKey l' := windowKey_of_append hkey
    have hC' : ∀ x ∈ l', ∀ y ∈ l', P x = true → P y = true →
        y.time_cap < x.time_exec := by
      intro x hx y hy hPx hPy
      exact hC x (List.mem_append_left _ hx) y (List.mem_append_left _ hy)
        hPx hPy
    by_cases hb : P b = true
    · rw [List.filter_append, List.filter_singleton, hb]
      simp only [cond_true, List.map_append, List.sum_append,
        List.map_singleton, List.sum_singleton]
      have hkb := hkey l'.length (by simp)
      rw [List.getD_append_right _ _ _ _ le_rfl] at hkb
      simp only [Nat.sub_self, List.getD_cons_zero] at hkb
      rw [List.take_left] at hkb
      have hPQ : ∀ a ∈ l', P a =
          (P a && decide (b.time_cap < a.time_exec)) := by
        intro a ha
        by_cases hPa : P a = true
        · have hlt := hC a (List.mem_append_left _ ha) b
            (List.mem_append_right _ (List.mem_singleton_self b)) hPa hb
          simp [hPa, hlt]
        · simp only [Bool.not_eq_true] at hPa
          simp [hPa]
      have hPfilter : l'.filter P =
          (l'.filter (fun x => decide (b.time_cap < x.time_exec))).filter P := by
        rw [List.filter_filter]
        exact List.filter_congr hPQ
      have hle : ((l'.filter P).map (·.amount)).sum ≤
          ((l'.filter (fun x => decide (b.time_cap < x.time_exec))).map
            (·.amount)).sum := by
        rw [hPfilter]
        exact sum_le_of_sublist (List.Sublist.map _ (List.filter_sublist _))
      omega
    · rw [List.filter_append, List.filter_singleton]
      simp only [Bool.not_eq_true] at hb
      rw [hb]
      simpa using ih hkey' hC'

/-- The capture-time sliding-window invariant holds on any ledger satisfying
the per-execution capacity bound and the capture/request/execution time
gaps. -/
theorem inv_capture_of_inv {l : List Execution} (hkey : WindowKey l)
    (hgaps : ∀ e ∈ l, e.time_cap + 1 ≤ e.time_req ∧
      e.time_req + DAYS3 ≤ e.time_exec) :
    inv_capture_timestamps l := by
  intro e he
  apply window_sum_le hkey
  intro x hx y hy hPx hPy
  simp only [decide_eq_true_eq] at hPx hPy
  have hgx := hgaps x hx
  omega

/-- The request-time sliding-window invariant holds on any ledger satisfying
the per-execution capacity bound and the time gaps. -/
theorem inv_requested_of_inv {l : List Execution} (hkey : WindowKey l)
    (hgaps : ∀ e ∈ l, e.time_cap + 1 ≤ e.time_req ∧
      e.time_req + DAYS3 ≤ e.time_exec) :
    inv_requested_timestamps l := by
  intro e he
  apply window_sum_le hkey
  intro x hx y hy hPx hPy
  simp only [decide_eq_true_eq] at hPx hPy
  have hgx := hgaps x hx
  have hgy := hgaps y hy
  omega

/-- The execution-time sliding-window invariant holds on any ledger
satisfying the per-execution capacity bound and the time gaps. -/
theorem inv_executed_of_inv {l : List Execution} (hkey : WindowKey l)
    (hgaps : ∀ e ∈ l, e.time_cap + 1 ≤ e.time_req ∧
      e.time_req + DAYS3 ≤ e.time_exec) :
    inv_executed_timestamps l := by
  intro e he
  apply window_sum_le hkey
  intro x hx y hy hPx hPy
  simp only [decide_eq_true_eq] at hPx hPy
  have hgy := hgaps y hy
  omega

/-- Every reachable shadow-ledger state satisfies the invariant bundle. -/
theorem reachable_stateInv {st : LedgerState} {now : ℕ}
    (h : Reachable st now) : StateInv st now := by
  induction h with
  | init now => exact stateInv_init now
  | tick _ hle ih => exact stateInv_tick ih hle
  | request _ _ htc _ ih => exact stateInv_request ih htc
  | execute _ _ ih => exact stateInv_execute ih

/-- C3: in every reachable shadow-ledger state, for each of the three time
bases (capture time, request time, execution time) and for every recorded
execution `e`, the sum of the amounts of the executions whose corresponding
time base lies in `[e.t, e.t + 3 days]` does not exceed the network capacity
`100_000e18`. -/
theorem C3_window_invariants {st : LedgerState} {now : ℕ}
    (h : Reachable st now) :
    inv_capture_timestamps st.executed_slashes ∧
    inv_requested_timestamps st.executed_slashes ∧
    inv_executed_timestamps st.executed_slashes := by
  have hi := reachable_stateInv h
  exact ⟨inv_capture_of_inv hi.winkey hi.gaps,
    inv_requested_of_inv hi.winkey hi.gaps,
    inv_executed_of_inv hi.winkey hi.gaps⟩

/-- Witness for C3 at a concrete reachable state with one execution. -/
theorem C3_window_invariants_witness :
    inv_capture_timestamps
      (flow_execute_slash (flow_request_slash initState 10 5 100).1 10
        0).st.executed_slashes ∧
    inv_requested_timestamps
      (flow_execute_slash (flow_request_slash initState 10 5 100).1 10
        0).st.executed_slashes ∧
    inv_executed_timestamps
      (flow_execute_slash (flow_request_slash initState 10 5 100).1 10
        0).st.executed_slashes :=
  C3_window_invariants
    (Reachable.execute
      (Reachable.request (Reachable.init 10) (by decide) (by decide)
        (by decide))
      (by decide))

/-- C4: in every reachable shadow-ledger state the slashable-stake formula
`max(capacity + cumulative_slash_at(capture_time) - last_cumulative_slash, 0)`
is never negative and never exceeds the capacity `100_000e18`. -/
theorem C4_slashable_bounds {st : LedgerState} {now : ℕ}
    (h : Reachable st now) (time_cap : ℕ) :
    0 ≤ slashable_amt st.executed_slashes time_cap ∧
    slashable_amt st.executed_slashes time_cap ≤ (networkCapacity : ℤ) := by
  constructor
  · exact le_max_right _ _
  · have hle :=
      cumulative_slash_at_le_last (reachable_stateInv h).rt time_cap
    unfold slashable_amt
    omega

/-- Witness for C4 at a concrete reachable state. -/
theorem C4_slashable_bounds_witness :
    0 ≤ slashable_amt
        (flow_execute_slash (flow_request_slash initState 10 5 100).1 10
          0).st.executed_slashes 7 ∧
    slashable_amt
        (flow_execute_slash (flow_request_slash initState 10 5 100).1 10
          0).st.executed_slashes 7 ≤ (networkCapacity : ℤ) :=
  C4_slashable_bounds
    (Reachable.execute
      (Reachable.request (Reachable.init 10) (by decide) (by decide)
        (by decide))
      (by decide)) 7

/-- C6: in every reachable shadow-ledger state, the `cumulative_slash` of
the `i`-th recorded execution equals the sum of the amounts of executions
`0..i` (running total); every action preserves this. -/
theorem C6_running_total {st : LedgerState} {now : ℕ}
    (h : Reachable st now) : IsRunningTotal st.executed_slashes :=
  (reachable_stateInv h).rt

/-- Witness for C6 at a concrete reachable state with one execution. -/
theorem C6_running_total_witness :
    IsRunningTotal
      (flow_execute_slash (flow_request_slash initState 10 5 100).1 10
        0).st.executed_slashes :=
  C6_running_total
    (Reachable.execute
      (Reachable.request (Reachable.init 10) (by decide) (by decide)
        (by decide))
      (by decide))

/-- C7: in every reachable shadow-ledger state, the recorded executions are
sorted (non-decreasing) by `capture_time` and non-decreasing in
`exec_time`. -/
theorem C7_sorted {st : LedgerState} {now : ℕ} (h : Reachable st now) :
    SortedBy (·.time_cap) st.executed_slashes ∧
    SortedBy (·.time_exec) st.executed_slashes :=
  ⟨(reachable_stateInv h).sorted_cap, (reachable_stateInv h).sorted_exec⟩

/-- Witness for C7 at a concrete reachable state with one execution. -/
theorem C7_sorted_witness :
    SortedBy (·.time_cap)
      (flow_execute_slash (flow_request_slash initState 10 5 100).1 10
        0).st.executed_slashes ∧
    SortedBy (·.time_exec)
      (flow_execute_slash (flow_request_slash initState 10 5 100).1 10
        0).st.executed_slashes :=
  C7_sorted
    (Reachable.execute
      (Reachable.request (Reachable.init 10) (by decide) (by decide)
        (by decide))
      (by decide))

/-- C9: for every execution history maintained by the ledger (sorted by
execution time, cumulative totals forming a running total of the amounts),
`cumulative_slash_at` is monotonically non-decreasing in the queried time. -/
theorem C9_monotone {l : List Execution} (hs : SortedBy (·.time_exec) l)
    (hrt : IsRunningTotal l) {t1 t2 : ℕ} (h12 : t1 ≤ t2) :
    cumulative_slash_at l t1 ≤ cumulative_slash_at l t2 := by
  rw [cumulative_slash_at_eq_sum hs hrt t1,
    cumulative_slash_at_eq_sum hs hrt t2]
  apply sum_le_of_sublist
  apply List.Sublist.map
  apply List.monotone_filter_right
  intro a ha
  simp only [decide_eq_true_eq] at ha ⊢
  omega

/-- Witness for C9 on a concrete two-execution history. -/
theorem C9_monotone_witness :
    SortedBy (·.time_exec)
      [⟨5, 6, 10, 100, 100⟩, ⟨7, 8, 12, 130, 30⟩] ∧
    IsRunningTotal [⟨5, 6, 10, 100, 100⟩, ⟨7, 8, 12, 130, 30⟩] ∧
    cumulative_slash_at [⟨5, 6, 10, 100, 100⟩, ⟨7, 8, 12, 130, 30⟩] 10 ≤
      cumulative_slash_at [⟨5, 6, 10, 100, 100⟩, ⟨7, 8, 12, 130, 30⟩] 12 :=
  ⟨by decide, by decide, C9_monotone (by decide) (by decide) (by decide)⟩

/-- C1 counterexample: on a reachable one-execution history (capture time 5,
execution time 259210, cumulative 100), the implemented lookup at time 5
returns 0, while the last execution with `capture_time ≤ 5` has cumulative
100 — the lookup keys on `exec_time`, not `capture_time`. -/
theorem C1_counterexample :
    Reachable exStC1 259210 ∧
    cumulative_slash_at exStC1.executed_slashes 5 = 0 ∧
    cumulative_slash_at_by_capture exStC1.executed_slashes 5 = 100 :=
  ⟨Reachable.execute
      (Reachable.request (Reachable.init 10) (by decide) (by decide)
        (by decide))
      (by decide),
    by decide, by decide⟩

/-- C1 (amended): for every execution history sorted by `exec_time` (as the
ledger maintains it) and every time `t`, `cumulative_slash_at t` returns
exactly the `cumulative_slash` of the last recorded execution whose
`exec_time` is `≤ t` (0 when none exists; ties at `t` resolve to the last
such execution, the upper-bound rule). -/
theorem C1_cumulative_lookup {l : List Execution}
    (hs : SortedBy (·.time_exec) l) (t : ℕ) :
    cumulative_slash_at l t = cumulative_slash_at_by_exec l t :=
  cumulative_slash_at_eq_by_exec hs t

/-- Witness for the amended C1 on a history with a duplicated execution
time, exercising the upper-bound tie rule. -/
theorem C1_cumulative_lookup_witness :
    SortedBy (·.time_exec) [⟨1, 2, 10, 4, 4⟩, ⟨3, 4, 10, 9, 5⟩] ∧
    cumulative_slash_at [⟨1, 2, 10, 4, 4⟩, ⟨3, 4, 10, 9, 5⟩] 10 =
      cumulative_slash_at_by_exec [⟨1, 2, 10, 4, 4⟩, ⟨3, 4, 10, 9, 5⟩] 10 :=
  ⟨by decide, C1_cumulative_lookup (by decide) 10⟩

/-- C5 counterexample: on the same reachable one-execution history, querying
time 7 brackets to index 0, but the execution there has `capture_time`
5 < 7, so the capture-time reading of the assertion fails (the code asserts
over `time_exec`). -/
theorem C5_counterexample :
    Reachable exStC5 259210 ∧
    ¬ bracket_by_capture exStC5.executed_slashes 7 :=
  ⟨Reachable.execute
      (Reachable.request (Reachable.init 10) (by decide) (by decide)
        (by decide))
      (by decide),
    by decide⟩

/-- C5 (amended): for every execution history sorted by `exec_time` (as the
ledger maintains it) and every queried time, the index located by the binary
search satisfies the bracketing postcondition over `exec_time`: `i = 0` or
`executions[i-1].exec_time ≤ t`, and `i = len` or
`executions[i].exec_time ≥ t` — the assertions guarding the lookup never
fail. -/
theorem C5_bracket {l : List Execution} (hs : SortedBy (·.time_exec) l)
    (t : ℕ) : bracket_by_exec l t := by
  unfold bracket_by_exec
  have hb := bisect_right_bracket (sorted_map_of_sortedBy hs) t
  have hlen : bisect_right (l.map (·.time_exec)) t ≤ l.length :=
    bisect_le_len _ l t
  constructor
  · by_cases h0 : bisect_right (l.map (·.time_exec)) t = 0
    · exact Or.inl h0
    · refine Or.inr ?_
      have h1 := hb.1 (bisect_right (l.map (·.time_exec)) t - 1) (by omega)
      rwa [getD_map_key _ l _ (by omega)] at h1
  · by_cases hL : bisect_right (l.map (·.time_exec)) t = l.length
    · exact Or.inl hL
    · refine Or.inr ?_
      have h2 := hb.2 (bisect_right (l.map (·.time_exec)) t) le_rfl
        (by simp only [List.length_map]; omega)
      rw [getD_map_key _ l _ (by omega)] at h2
      omega

/-- Witness for the amended C5 on a history with a duplicated execution
time. -/
theorem C5_bracket_witness :
    SortedBy (·.time_exec) [⟨1, 2, 10, 4, 4⟩, ⟨3, 4, 10, 9, 5⟩] ∧
    bracket_by_exec [⟨1, 2, 10, 4, 4⟩, ⟨3, 4, 10, 9, 5⟩] 7 :=
  ⟨by decide, C5_bracket (by decide) 7⟩

/-- C2: with a pending request chosen (and time advanced past the 3-day veto
window when needed), the execution submission is expected to fail iff the
request was already executed, its amount is 0, the current time exceeds
`capture_time + 14 days`, or the staleness-adjusted slashable amount is 0;
otherwise it succeeds returning exactly `min(slashable, request.amount)`,
the request's executed flag is set, and one `SlashExecution` advancing the
cumulative total by exactly the returned amount is appended. -/
theorem C2_execute_oracle (st : LedgerState) (now0 i_idx : ℕ) (r : Request)
    (h : st.requested_slashes.get? i_idx = some r) :
    ((flow_execute_slash st now0 i_idx).outcome = ExecOutcome.expectFail ↔
      (r.executed = true ∨ r.amount = 0 ∨
        r.time_cap + DAYS14 < exec_now r now0 ∨
        exec_slashable st.executed_slashes r (exec_now r now0) = 0)) ∧
    (¬ (r.executed = true ∨ r.amount = 0 ∨
        r.time_cap + DAYS14 < exec_now r now0 ∨
        exec_slashable st.executed_slashes r (exec_now r now0) = 0) →
      (flow_execute_slash st now0 i_idx).outcome =
        ExecOutcome.expectSuccess
          (min (exec_slashable st.executed_slashes r (exec_now r now0))
            (r.amount : ℤ)).toNat ∧
      (flow_execute_slash st now0 i_idx).st.requested_slashes =
        st.requested_slashes.set i_idx { r with executed := true } ∧
      (flow_execute_slash st now0 i_idx).st.executed_slashes =
        st.executed_slashes ++
          [⟨r.time_cap, r.time_req, exec_now r now0,
            last_cumulative_slash st.executed_slashes +
              (min (exec_slashable st.executed_slashes r (exec_now r now0))
                (r.amount : ℤ)).toNat,
            (min (exec_slashable st.executed_slashes r (exec_now r now0))
              (r.amount : ℤ)).toNat⟩]) := by
  unfold flow_execute_slash
  rw [h]
  dsimp only
  by_cases hfail : exec_fail_cond st.executed_slashes r (exec_now r now0)
  · rw [if_pos hfail]
    exact ⟨⟨fun _ => hfail, fun _ => rfl⟩, fun hnf => absurd hfail hnf⟩
  · rw [if_neg hfail]
    refine ⟨⟨fun hcon => ?_, fun hc => absurd hc hfail⟩, fun _ => ?_⟩
    · exact ExecOutcome.noConfusion hcon
    · refine ⟨rfl, rfl, ?_⟩
      simp only [exec_cumulative_eq, exec_slashed]

/-- Witness for C2: a one-request ledger whose request executes for its full
amount. -/
theorem C2_execute_oracle_witness :
    (flow_execute_slash ⟨[⟨5, 10, 100, false⟩], [], ⟨1, 0, 0, 0⟩⟩ 10
        0).outcome = ExecOutcome.expectSuccess 100 ∧
    (flow_execute_slash ⟨[⟨5, 10, 100, false⟩], [], ⟨1, 0, 0, 0⟩⟩ 10
        0).st.executed_slashes = [⟨5, 10, 259210, 100, 100⟩] := by
  have h := C2_execute_oracle ⟨[⟨5, 10, 100, false⟩], [], ⟨1, 0, 0, 0⟩⟩ 10 0
    ⟨5, 10, 100, false⟩ rfl
  obtain ⟨h1, h2, h3⟩ := h.2 (by decide)
  constructor
  · rw [h1]; decide
  · rw [h3]; decide

/-- C8: the request submission is expected to succeed iff the chosen
requested amount is strictly positive; on success exactly one `SlashRequest`
carrying the chosen capture time, the submission timestamp and the chosen
amount (not yet executed) is appended; a zero amount must be rejected. -/
theorem C8_request_oracle (st : LedgerState) (now time_cap amt_choice : ℕ) :
    ((flow_request_slash st now time_cap amt_choice).2 =
        ReqOutcome.expectSuccess ↔
      0 < requested_amt st.executed_slashes time_cap amt_choice) ∧
    (0 < requested_amt st.executed_slashes time_cap amt_choice →
      (flow_request_slash st now time_cap amt_choice).1.requested_slashes =
        st.requested_slashes ++
          [⟨time_cap, now,
            requested_amt st.executed_slashes time_cap amt_choice,
            false⟩]) ∧
    (requested_amt st.executed_slashes time_cap amt_choice = 0 →
      (flow_request_slash st now time_cap amt_choice).2 =
        ReqOutcome.expectFail) := by
  unfold flow_request_slash
  by_cases hpos : 0 < requested_amt st.executed_slashes time_cap amt_choice
  · rw [if_pos hpos]
    exact ⟨⟨fun _ => hpos, fun _ => rfl⟩, fun _ => rfl,
      fun hz => absurd hz (by omega)⟩
  · rw [if_neg hpos]
    refine ⟨⟨fun hcon => ReqOutcome.noConfusion hcon,
      fun hc => absurd hc hpos⟩, fun hc => absurd hc hpos, fun _ => rfl⟩

/-- Witness for C8: a fresh ledger accepts a positive request and records
it. -/
theorem C8_request_oracle_witness :
    (flow_request_slash initState 10 5 100).1.requested_slashes =
      [⟨5, 10, 100, false⟩] := by
  have h := (C8_request_oracle initState 10 5 100).2.1 (by decide)
  rw [h]
  decide

/-- C10: whenever an action takes its expected-rejection branch, the shadow
ledger is left unchanged — no request or execution is appended and no
executed flag changes — and only the corresponding failure counter is
incremented. -/
theorem C10_reject_preserves_ledger :
    (∀ (st : LedgerState) (now time_cap amt_choice : ℕ),
      (flow_request_slash st now time_cap amt_choice).2 =
          ReqOutcome.expectFail →
        (flow_request_slash st now time_cap amt_choice).1.requested_slashes =
            st.requested_slashes ∧
        (flow_request_slash st now time_cap amt_choice).1.executed_slashes =
            st.executed_slashes ∧
        (flow_request_slash st now time_cap amt_choice).1.stats =
          { st.stats with request_slash_f := st.stats.request_slash_f + 1 }) ∧
    (∀ (st : LedgerState) (now0 i_idx : ℕ),
      (flow_execute_slash st now0 i_idx).outcome = ExecOutcome.expectFail →
        (flow_execute_slash st now0 i_idx).st.requested_slashes =
            st.requested_slashes ∧
        (flow_execute_slash st now0 i_idx).st.executed_slashes =
            st.executed_slashes ∧
        (flow_execute_slash st now0 i_idx).st.stats =
          { st.stats with
            execute_slash_f := st.stats.execute_slash_f + 1 }) := by
  constructor
  · intro st now time_cap amt_choice hfail
    unfold flow_request_slash at *
    by_cases hpos : 0 < requested_amt st.executed_slashes time_cap amt_choice
    · rw [if_pos hpos] at hfail
      exact ReqOutcome.noConfusion hfail
    · rw [if_neg hpos] at *
      exact ⟨rfl, rfl, rfl⟩
  · intro st now0 i_idx hfail
    unfold flow_execute_slash at *
    cases hreq : st.requested_slashes.get? i_idx with
    | none =>
      rw [hreq] at hfail
      exact ExecOutcome.noConfusion hfail
    | some r =>
      rw [hreq] at hfail
      dsimp only at hfail ⊢
      by_cases hc : exec_fail_cond st.executed_slashes r (exec_now r now0)
      · rw [if_pos hc]
        exact ⟨rfl, rfl, rfl⟩
      · rw [if_neg hc] at hfail
        exact ExecOutcome.noConfusion hfail

/-- Witness for C10: a zero-amount request draw and a zero-amount pending
request both take the rejection branch and leave the ledger lists
unchanged. -/
theorem C10_reject_preserves_ledger_witness :
    (flow_request_slash initState 10 5 0).1.requested_slashes = [] ∧
    (flow_execute_slash ⟨[⟨5, 10, 0, false⟩], [], ⟨0, 0, 0, 0⟩⟩ 10
        0).st.executed_slashes = [] :=
  ⟨(C10_reject_preserves_ledger.1 initState 10 5 0 (by decide)).1,
    (C10_reject_preserves_ledger.2 ⟨[⟨5, 10, 0, false⟩], [], ⟨0, 0, 0, 0⟩⟩
      10 0 (by decide)).2.1⟩

end Spk
